import Mathlib

/-!
Verification of the `web_server` ThreadPool (src/lib.rs).

Shallow embedding of the crate's single module: a `ThreadPool` that
delivers `Message`s (either a boxed job or `Terminate`) over an mpsc
channel whose receiving end is shared by all workers behind
`Arc<Mutex<...>>`.

Jobs are opaque `FnOnce` closures in the source; the embedding
identifies each job by a natural-number label.  The mpsc channel is a
FIFO queue (`List Message`, head = next message to receive) together
with a count of live references to the receiving end (`Arc` clones held
by running worker threads plus the local binding inside `new` while it
is alive).  `send` fails exactly when no reference to the receiver
remains, matching `std::sync::mpsc::Sender::send` returning `Err` once
every `Receiver` has been dropped.

Two views of the same code are embedded:

* Pure API-level functions `ThreadPool.new`, `ThreadPool.execute`,
  `sendTerminates` / `joinAll` (the two loops of `Drop for ThreadPool`),
  threading the channel state explicitly and returning `Except` where
  the source `panic!`s via `expect`.
* A small-step operational semantics (`step` / `run`) of the worker
  run-loop spawned in `Worker::new`, with one program-counter state per
  control point of the loop body, used for the concurrency claims.
-/

/-- The `Message` enum of src/lib.rs: `NewJob(Job)` carries one job
(identified here by a `Nat` label), `Terminate` carries no payload. -/
inductive Message where
  | NewJob (job : Nat)
  | Terminate
deriving DecidableEq, Repr

/-- State of the mpsc channel: `queue` is the FIFO buffer (head is the
next message `recv` returns; `send` appends at the tail), and
`receiverRefs` counts the live references to the receiving end (the
`Arc<Mutex<Receiver>>` clones).  `send` errs iff `receiverRefs = 0`. -/
structure Channel where
  queue : List Message
  receiverRefs : Nat
deriving DecidableEq, Repr

/-- Model of `mpsc::Sender::send`: enqueues at the tail, or fails when every
reference to the receiving end has been dropped. -/
def Channel.send (ch : Channel) (m : Message) : Except Unit Channel :=
  if ch.receiverRefs = 0 then .error ()
  else .ok { ch with queue := ch.queue ++ [m] }

/-- The `Worker` struct of src/lib.rs: an `id` and
`thread: Option<JoinHandle<()>>`.  The embedding keeps the handle as
`Option Unit`: `some ()` while the handle is held, `none` once
`worker.thread.take()` has consumed it. -/
structure Worker where
  id : Nat
  thread : Option Unit
deriving DecidableEq, Repr

/-- Model of `Worker::new`: spawns the run-loop thread (which owns one `Arc`
clone of the receiving end, so `receiverRefs` grows by one) and returns
the `Worker` record holding the fresh join handle. -/
def Worker.new (id : Nat) (ch : Channel) : Worker × Channel :=
  (⟨id, some ()⟩, { ch with receiverRefs := ch.receiverRefs + 1 })

/-- The `ThreadPool` struct: the owned workers.  (The `sender` field is
modelled by threading the `Channel` value alongside the pool.) -/
structure ThreadPool where
  workers : List Worker
deriving DecidableEq, Repr

/-- Model of `ThreadPool::new(size)` as written in src/lib.rs: the
`assert!(size > 0)` is commented out, so construction never panics.
It creates the channel (one receiver reference: the local `Arc`
binding), pushes `Worker::new(id, Arc::clone(&receiver))` for
`id in 0..size`, and returns the pool; the local `Arc` binding is
dropped when `new` returns, which removes one receiver reference. -/
def ThreadPool.new (size : Nat) : ThreadPool × Channel :=
  let ch0 : Channel := ⟨[], 1⟩
  let acc := (List.range size).foldl
    (fun (p : List Worker × Channel) id =>
      let (w, ch) := Worker.new id p.2
      (p.1 ++ [w], ch))
    (([] : List Worker), ch0)
  (⟨acc.1⟩, { acc.2 with receiverRefs := acc.2.receiverRefs - 1 })

/-- Model of `ThreadPool::execute`: wraps the job as `Message::NewJob` and sends
it; a failed send hits `.expect(...)`, i.e. panics with the source's
message (modelled as `Except.error`). -/
def ThreadPool.execute (ch : Channel) (job : Nat) : Except String Channel :=
  match ch.send (Message.NewJob job) with
  | .ok ch' => .ok ch'
  | .error _ =>
      .error "Oh noes! Looks like none of the threads in the thread pool are alive!"

/-- First loop of `Drop for ThreadPool`: `for _ in &self.workers`, one
`send(Message::Terminate).expect(...)` per iteration.  The recursion is
on the number of owned workers. -/
def sendTerminates (ch : Channel) : Nat → Except String Channel
  | 0 => .ok ch
  | n + 1 =>
      match ch.send Message.Terminate with
      | .ok ch' => sendTerminates ch' n
      | .error _ =>
          .error "Failed to termination message to the one or more of the workers!"

/-- Second loop of `Drop for ThreadPool`: for each worker in index
order, `if let Some(thread) = worker.thread.take()` then
`thread.join().expect(...)`.  `ok w.id` says whether worker `w`'s
thread terminated normally (so that `join` returns `Ok`); a failed
join panics via `expect`, aborting the loop at that point.  Returns
the workers as the loop leaves them together with `some msg` when the
loop panicked. -/
def joinAll (ok : Nat → Bool) : List Worker → List Worker × Option String
  | [] => ([], none)
  | w :: ws =>
      match w.thread with
      | some _ =>
          if ok w.id then
            let rest := joinAll ok ws
            ({ w with thread := none } :: rest.1, rest.2)
          else
            ({ w with thread := none } :: ws,
              some "Failed to join on one of the worker threads!")
      | none =>
          let rest := joinAll ok ws
          (w :: rest.1, rest.2)

/-- Observable events of the teardown sequence, used to state ordering
properties of `Drop for ThreadPool`. -/
inductive DropEvent where
  | sentTerminate
  | joined (id : Nat) (ok : Bool)
  | skipped (id : Nat)
deriving DecidableEq, Repr

/-- Event trace of the join loop of `drop`: one `joined id true` per
cleanly joined worker, `joined id false` terminating the trace when a
join panics, `skipped id` when the handle was already taken. -/
def joinEvents (ok : Nat → Bool) : List Worker → List DropEvent
  | [] => []
  | w :: ws =>
      match w.thread with
      | some _ =>
          if ok w.id then DropEvent.joined w.id true :: joinEvents ok ws
          else [DropEvent.joined w.id false]
      | none => DropEvent.skipped w.id :: joinEvents ok ws

/-- Event trace of the whole `drop`: the terminate-send loop runs to
completion over `self.workers` first, then the join loop runs. -/
def dropEvents (ok : Nat → Bool) (ws : List Worker) : List DropEvent :=
  ws.map (fun _ => DropEvent.sentTerminate) ++ joinEvents ok ws

/-- Model of `Drop for ThreadPool` end to end: send one `Terminate` per owned
worker (panicking if a send fails), then join the workers in index
order. -/
def ThreadPool.dropPool (ok : Nat → Bool) (p : ThreadPool) (ch : Channel) :
    Except String (Channel × List Worker × Option String) :=
  match sendTerminates ch p.workers.length with
  | .error e => .error e
  | .ok ch' =>
      let joined := joinAll ok p.workers
      .ok (ch', joined.1, joined.2)

/-- Control point of the worker run-loop of `Worker::new`, one state
per point between the atomic actions of the loop body
`let message = receiver.lock().unwrap().recv().unwrap(); match message { ... }`:

* `waiting`   — top of the loop, about to call `lock()`;
* `locked`    — holds the mutex, blocked inside `recv()`;
* `got m`     — `recv` returned `m`; the temporary `MutexGuard` was
  dropped at the end of the `let` statement, so the lock is free;
* `executing j` — inside `job()` for the job labelled `j`;
* `done`      —`break` executed after `Terminate`; the thread's closure
  has returned (its `Arc` clone of the receiver is dropped). -/
inductive WorkerPC where
  | waiting
  | locked
  | got (m : Message)
  | executing (j : Nat)
  | done
deriving DecidableEq, Repr

/-- Global state of a running pool: the channel's FIFO buffer, which
worker (if any) currently holds the receiver mutex, the control point
of each worker thread, the log of `(worker, job)` pairs in the order
jobs were claimed out of the channel, and the log of `(worker, job)`
pairs in the order job executions completed. -/
structure SysState where
  queue : List Message
  lockHolder : Option Nat
  workers : List WorkerPC
  claimedLog : List (Nat × Nat)
  executedLog : List (Nat × Nat)
deriving DecidableEq, Repr

/-- Interleaving actions: `submit` and `submitTerminate` are the
producer side (`execute` and `drop`'s first loop); the rest are the
atomic transitions of worker `w`'s run-loop. -/
inductive Act where
  | submit (j : Nat)
  | submitTerminate
  | acquire (w : Nat)
  | dequeue (w : Nat)
  | startJob (w : Nat)
  | finishJob (w : Nat)
  | exitLoop (w : Nat)
deriving DecidableEq, Repr

/-- The worker an action belongs to (`none` for producer actions). -/
def Act.worker : Act → Option Nat
  | .submit _ => none
  | .submitTerminate => none
  | .acquire w => some w
  | .dequeue w => some w
  | .startJob w => some w
  | .finishJob w => some w
  | .exitLoop w => some w

/-- Whether every worker thread has exited its loop (`true` iff each has
dropped its `Arc` clone, so no reference to the receiver remains and
sends fail).  A zero-worker pool satisfies this vacuously: its receiver
was already dropped at the end of `new`. -/
def allExited (ws : List WorkerPC) : Bool :=
  ws.all (fun pc => pc == WorkerPC.done)

/-- One atomic transition of the system; `none` when the action is not
enabled in `s`.  Sends append at the tail; `dequeue` removes the head
while holding the mutex and releases the mutex in the same statement
(the `MutexGuard` temporary dies at the semicolon of the `let`). -/
def step (s : SysState) : Act → Option SysState
  | .submit j =>
      if allExited s.workers then none
      else some { s with queue := s.queue ++ [Message.NewJob j] }
  | .submitTerminate =>
      if allExited s.workers then none
      else some { s with queue := s.queue ++ [Message.Terminate] }
  | .acquire w =>
      match s.workers[w]?, s.lockHolder with
      | some WorkerPC.waiting, none =>
          some { s with lockHolder := some w,
                        workers := s.workers.set w WorkerPC.locked }
      | _, _ => none
  | .dequeue w =>
      match s.workers[w]?, s.lockHolder, s.queue with
      | some WorkerPC.locked, some w', m :: rest =>
          if w' = w then
            some { s with queue := rest
                        , lockHolder := none
                        , workers := s.workers.set w (WorkerPC.got m)
                        , claimedLog :=
                            match m with
                            | Message.NewJob j => s.claimedLog ++ [(w, j)]
                            | Message.Terminate => s.claimedLog }
          else none
      | _, _, _ => none
  | .startJob w =>
      match s.workers[w]? with
      | some (WorkerPC.got (Message.NewJob j)) =>
          some { s with workers := s.workers.set w (WorkerPC.executing j) }
      | _ => none
  | .finishJob w =>
      match s.workers[w]? with
      | some (WorkerPC.executing j) =>
          some { s with workers := s.workers.set w WorkerPC.waiting
                      , executedLog := s.executedLog ++ [(w, j)] }
      | _ => none
  | .exitLoop w =>
      match s.workers[w]? with
      | some (WorkerPC.got Message.Terminate) =>
          some { s with workers := s.workers.set w WorkerPC.done }
      | _ => none

/-- Run a list of actions from `s`, failing if any action is not
enabled where it occurs. -/
def run (s : SysState) : List Act → Option SysState
  | [] => some s
  | a :: as =>
      match step s a with
      | some s' => run s' as
      | none => none

/-- Initial state of a pool of `n` workers fresh out of
`ThreadPool::new n`: empty channel, mutex free, every worker at the
top of its loop. -/
def initState (n : Nat) : SysState :=
  ⟨[], none, List.replicate n WorkerPC.waiting, [], []⟩

/-- The job labels carried by the `NewJob` messages of a buffer, in
queue order. -/
def jobsOfMsgs (q : List Message) : List Nat :=
  q.filterMap fun m =>
    match m with
    | Message.NewJob j => some j
    | Message.Terminate => none

/-- The job a worker currently holds (received but not finished), if
any. -/
def pcJob : WorkerPC → Option Nat
  | WorkerPC.got (Message.NewJob j) => some j
  | WorkerPC.executing j => some j
  | _ => none

/-- Jobs currently held by some worker (claimed, not yet finished). -/
def inFlight (ws : List WorkerPC) : List Nat :=
  ws.filterMap pcJob

/-- Jobs claimed out of the channel, in claim order. -/
def claimedJobs (s : SysState) : List Nat :=
  s.claimedLog.map Prod.snd

/-- Jobs whose execution has completed, in completion order. -/
def executedJobs (s : SysState) : List Nat :=
  s.executedLog.map Prod.snd

/-- Jobs submitted by the producer, in submission order. -/
def submittedJobs (as : List Act) : List Nat :=
  as.filterMap fun a =>
    match a with
    | Act.submit j => some j
    | _ => none

def c2acts : List Act :=
  [Act.submit 5, Act.submit 6, Act.acquire 0, Act.dequeue 0, Act.startJob 0,
   Act.finishJob 0, Act.acquire 0, Act.dequeue 0, Act.startJob 0,
   Act.finishJob 0, Act.submitTerminate, Act.acquire 0, Act.dequeue 0,
   Act.exitLoop 0]

def c2state : SysState :=
  ⟨[], none, [WorkerPC.done], [(0, 5), (0, 6)], [(0, 5), (0, 6)]⟩

def c5acts : List Act := [Act.submit 5, Act.acquire 0]

def c5state : SysState :=
  ⟨[Message.NewJob 5], some 0, [WorkerPC.locked], [], []⟩

def c9got : SysState :=
  ⟨[], none, [WorkerPC.got (Message.NewJob 7)], [(0, 7)], []⟩

def c9exec : SysState := ⟨[], none, [WorkerPC.executing 7], [(0, 7)], []⟩

def c9term : SysState := ⟨[], none, [WorkerPC.got Message.Terminate], [], []⟩

def c9fin : SysState := ⟨[], none, [WorkerPC.done], [], []⟩

def c3ws : List Worker := [⟨0, some ()⟩, ⟨1, some ()⟩]

def c3ch : Channel := ⟨[], 2⟩

def c4ws : List Worker := [⟨0, some ()⟩, ⟨1, some ()⟩]

def c4ok : Nat → Bool := fun i => i != 0

def c6ws : List Worker := [⟨0, some ()⟩, ⟨1, some ()⟩, ⟨2, some ()⟩]

/-- FIFO bookkeeping invariant: the jobs claimed so far followed by the
jobs still queued are exactly the submitted jobs, in submission
order. -/
def FifoInv (as : List Act) (s : SysState) : Prop :=
  claimedJobs s ++ jobsOfMsgs s.queue = submittedJobs as

/-- Exactly-once invariant: completed executions together with in-flight
jobs form, as a multiset, exactly the claimed jobs — no claimed job is
lost, duplicated, or executed twice. -/
def OnceInv (s : SysState) : Prop :=
  (↑(executedJobs s ++ inFlight s.workers) : Multiset Nat) =
    (↑(claimedJobs s) : Multiset Nat)

/-- Mutex invariant: a worker's control point is `locked` exactly when
it is the registered holder of the receiver mutex. -/
def LockInv (s : SysState) : Prop :=
  (∀ w, s.lockHolder = some w → s.workers[w]? = some WorkerPC.locked) ∧
  (∀ w pc, s.workers[w]? = some pc →
    (pc = WorkerPC.locked ↔ s.lockHolder = some w))

/-- Conjunction of the three run-loop invariants, relative to the trace
of actions performed so far. -/
def PoolInv (as : List Act) (s : SysState) : Prop :=
  FifoInv as s ∧ OnceInv s ∧ LockInv s

/-- Replacing one element of a list changes the multiset of its
`filterMap` image by swapping the old element's contribution for the
new one's. -/
theorem filterMap_set_multiset {α β : Type} (f : α → Option β) (ws : List α)
    (w : Nat) (old a : α) (h : ws[w]? = some old) :
    (↑(List.filterMap f (ws.set w a)) + ↑(f old).toList : Multiset β) =
      ↑(List.filterMap f ws) + ↑(f a).toList := by
  obtain ⟨hlt, hget⟩ := List.getElem?_eq_some_iff.mp h
  have hdecomp : ws = List.take w ws ++ old :: List.drop (w + 1) ws := by
    conv_lhs => rw [← List.take_append_drop w ws]
    rw [← List.getElem_cons_drop ws w hlt, hget]
  have hset : ws.set w a = List.take w ws ++ a :: List.drop (w + 1) ws := by
    rw [List.set_eq_take_append_cons_drop, if_pos hlt]
  rw [hset]
  conv_rhs => rw [hdecomp]
  simp only [List.filterMap_append, List.filterMap_cons]
  cases f old <;> cases f a <;>
    simp only [Option.toList_none, Option.toList_some, ← Multiset.coe_add,
      ← Multiset.cons_coe, ← Multiset.singleton_add] <;> abel

theorem lockInv_set_nonlocked {s : SysState} (hlock : LockInv s) {w : Nat}
    {pcOld pcNew : WorkerPC} (hold : s.workers[w]? = some pcOld)
    (hOldNot : pcOld ≠ WorkerPC.locked) (hNewNot : pcNew ≠ WorkerPC.locked) :
    (∀ v, s.lockHolder = some v →
      (s.workers.set w pcNew)[v]? = some WorkerPC.locked) ∧
    (∀ v pc, (s.workers.set w pcNew)[v]? = some pc →
      (pc = WorkerPC.locked ↔ s.lockHolder = some v)) := by
  obtain ⟨hone, htwo⟩ := hlock
  constructor
  · intro v hv
    have hvl := hone v hv
    by_cases hvw : w = v
    · subst hvw
      rw [hold] at hvl
      injection hvl with hvl
      exact absurd hvl hOldNot
    · rw [List.getElem?_set_ne hvw]
      exact hvl
  · intro v pc hv
    by_cases hvw : w = v
    · subst hvw
      obtain ⟨hlt, -⟩ := List.getElem?_eq_some_iff.mp hold
      rw [List.getElem?_set_self hlt] at hv
      injection hv with hv
      subst hv
      constructor
      · intro hc; exact absurd hc hNewNot
      · intro hc; exact absurd hc ((htwo w pcOld hold).not.mp hOldNot)
    · rw [List.getElem?_set_ne hvw] at hv
      exact htwo v pc hv

theorem submittedJobs_append (as bs : List Act) :
    submittedJobs (as ++ bs) = submittedJobs as ++ submittedJobs bs :=
  List.filterMap_append as bs _

theorem inv_step {as : List Act} {s : SysState} {a : Act} {s' : SysState}
    (hinv : PoolInv as s) (hstep : step s a = some s') :
    PoolInv (as ++ [a]) s' := by
  obtain ⟨hfifo, honce, hlock⟩ := hinv
  cases a with
  | submit j =>
      simp only [step] at hstep
      split at hstep
      · simp at hstep
      · injection hstep with hs
        subst hs
        refine ⟨?_, honce, hlock⟩
        simp only [FifoInv, claimedJobs, jobsOfMsgs, submittedJobs,
          List.filterMap_append] at hfifo ⊢
        simp [← hfifo, List.filterMap_cons]
  | submitTerminate =>
      simp only [step] at hstep
      split at hstep
      · simp at hstep
      · injection hstep with hs
        subst hs
        refine ⟨?_, honce, hlock⟩
        simp only [FifoInv, claimedJobs, jobsOfMsgs, submittedJobs,
          List.filterMap_append] at hfifo ⊢
        simp [← hfifo, List.filterMap_cons]
  | acquire w =>
      simp only [step] at hstep
      split at hstep
      · next hw hl =>
          injection hstep with hs
          subst hs
          refine ⟨?_, ?_, ?_⟩
          · simpa [FifoInv, claimedJobs, jobsOfMsgs, submittedJobs_append,
              submittedJobs] using hfifo
          · have hkey := filterMap_set_multiset pcJob s.workers w
              WorkerPC.waiting WorkerPC.locked hw
            simp only [pcJob, Option.toList_none, Multiset.coe_nil,
              add_zero] at hkey
            simp only [OnceInv, executedJobs, inFlight, claimedJobs] at honce ⊢
            simp only [← Multiset.coe_add] at honce ⊢
            rw [hkey]
            exact honce
          · obtain ⟨-, htwo⟩ := hlock
            constructor
            · intro v hv
              injection hv with hv
              subst hv
              obtain ⟨hlt, -⟩ := List.getElem?_eq_some_iff.mp hw
              exact List.getElem?_set_self hlt
            · intro v pc hv
              by_cases hvw : w = v
              · subst hvw
                obtain ⟨hlt, -⟩ := List.getElem?_eq_some_iff.mp hw
                rw [List.getElem?_set_self hlt] at hv
                injection hv with hv
                subst hv
                simp
              · rw [List.getElem?_set_ne hvw] at hv
                have hiff := htwo v pc hv
                rw [hl] at hiff
                simp only [hiff]
                constructor
                · intro hc; cases hc
                · intro hc
                  injection hc with hc
                  exact absurd hc hvw
      · simp at hstep
  | dequeue w =>
      simp only [step] at hstep
      split at hstep
      · next v m rest hw hl hq =>
          split at hstep
          · next hvw =>
              subst hvw
              injection hstep with hs
              subst hs
              have hkey := filterMap_set_multiset pcJob s.workers v
                WorkerPC.locked (WorkerPC.got m) hw
              refine ⟨?_, ?_, ?_⟩
              · cases m with
                | NewJob j =>
                    simp only [FifoInv, claimedJobs, jobsOfMsgs,
                      submittedJobs_append, submittedJobs, List.map_append,
                      List.filterMap_cons] at hfifo ⊢
                    rw [hq] at hfifo
                    simp only [List.filterMap_cons] at hfifo
                    simp [← hfifo]
                | Terminate =>
                    simp only [FifoInv, claimedJobs, jobsOfMsgs,
                      submittedJobs_append, submittedJobs] at hfifo ⊢
                    rw [hq] at hfifo
                    simp only [List.filterMap_cons] at hfifo
                    simp [← hfifo]
              · cases m with
                | NewJob j =>
                    simp only [pcJob, Option.toList_none, Option.toList_some,
                      Multiset.coe_nil, add_zero] at hkey
                    simp only [OnceInv, executedJobs, inFlight, claimedJobs,
                      List.map_append, List.map_cons, List.map_nil] at honce ⊢
                    simp only [← Multiset.coe_add] at honce ⊢
                    rw [hkey, ← honce]
                    abel
                | Terminate =>
                    simp only [pcJob, Option.toList_none, Multiset.coe_nil,
                      add_zero] at hkey
                    simp only [OnceInv, executedJobs, inFlight,
                      claimedJobs] at honce ⊢
                    simp only [← Multiset.coe_add] at honce ⊢
                    rw [hkey]
                    exact honce
              · obtain ⟨-, htwo⟩ := hlock
                constructor
                · intro u hu
                  cases hu
                · intro u pc hv
                  by_cases huv : v = u
                  · subst huv
                    obtain ⟨hlt, -⟩ := List.getElem?_eq_some_iff.mp hw
                    rw [List.getElem?_set_self hlt] at hv
                    injection hv with hv
                    subst hv
                    simp
                  · rw [List.getElem?_set_ne huv] at hv
                    have hiff := htwo u pc hv
                    rw [hl] at hiff
                    constructor
                    · intro hc
                      have h2 := hiff.mp hc
                      injection h2 with h2
                      exact absurd h2 huv
                    · intro hc; cases hc
          · simp at hstep
      · simp at hstep
  | startJob w =>
      simp only [step] at hstep
      split at hstep
      · next j hw =>
          injection hstep with hs
          subst hs
          have hkey := filterMap_set_multiset pcJob s.workers w
            (WorkerPC.got (Message.NewJob j)) (WorkerPC.executing j) hw
          simp only [pcJob, Option.toList_some] at hkey
          refine ⟨?_, ?_, ?_⟩
          · simpa [FifoInv, claimedJobs, jobsOfMsgs, submittedJobs_append,
              submittedJobs] using hfifo
          · have hfm := add_right_cancel hkey
            simp only [OnceInv, executedJobs, inFlight, claimedJobs] at honce ⊢
            simp only [← Multiset.coe_add] at honce ⊢
            rw [hfm]
            exact honce
          · exact lockInv_set_nonlocked hlock hw (by simp) (by simp)
      · simp at hstep
  | finishJob w =>
      simp only [step] at hstep
      split at hstep
      · next j hw =>
          injection hstep with hs
          subst hs
          have hkey := filterMap_set_multiset pcJob s.workers w
            (WorkerPC.executing j) WorkerPC.waiting hw
          simp only [pcJob, Option.toList_some, Option.toList_none,
            Multiset.coe_nil, add_zero] at hkey
          refine ⟨?_, ?_, ?_⟩
          · simpa [FifoInv, claimedJobs, jobsOfMsgs, submittedJobs_append,
              submittedJobs] using hfifo
          · simp only [OnceInv, executedJobs, inFlight, claimedJobs,
              List.map_append, List.map_cons, List.map_nil] at honce ⊢
            simp only [← Multiset.coe_add] at honce ⊢
            rw [← honce, ← hkey]
            abel
          · exact lockInv_set_nonlocked hlock hw (by simp) (by simp)
      · simp at hstep
  | exitLoop w =>
      simp only [step] at hstep
      split at hstep
      · next hw =>
          injection hstep with hs
          subst hs
          have hkey := filterMap_set_multiset pcJob s.workers w
            (WorkerPC.got Message.Terminate) WorkerPC.done hw
          simp only [pcJob, Option.toList_none, Multiset.coe_nil,
            add_zero] at hkey
          refine ⟨?_, ?_, ?_⟩
          · simpa [FifoInv, claimedJobs, jobsOfMsgs, submittedJobs_append,
              submittedJobs] using hfifo
          · simp only [OnceInv, executedJobs, inFlight, claimedJobs] at honce ⊢
            simp only [← Multiset.coe_add] at honce ⊢
            rw [hkey]
            exact honce
          · exact lockInv_set_nonlocked hlock hw (by simp) (by simp)
      · simp at hstep

theorem inv_run (bs : List Act) : ∀ {as : List Act} {s s' : SysState},
    PoolInv as s → run s bs = some s' → PoolInv (as ++ bs) s' := by
  induction bs with
  | nil =>
      intro as s s' hinv hrun
      simp only [run] at hrun
      injection hrun with h
      subst h
      simpa using hinv
  | cons b bs ih =>
      intro as s s' hinv hrun
      simp only [run] at hrun
      cases hb : step s b with
      | none =>
          simp only [hb] at hrun
          cases hrun
      | some s1 =>
          simp only [hb] at hrun
          have h1 := inv_step hinv hb
          have h2 := ih h1 hrun
          simpa [List.append_assoc] using h2

theorem inv_init (n : Nat) : PoolInv [] (initState n) := by
  refine ⟨?_, ?_, ?_, ?_⟩
  · simp [FifoInv, claimedJobs, jobsOfMsgs, submittedJobs, initState]
  · simp [OnceInv, executedJobs, inFlight, claimedJobs, initState, pcJob,
      List.filterMap_replicate]
  · intro w hw
    cases hw
  · intro w pc hw
    simp only [initState] at hw
    rw [List.getElem?_replicate] at hw
    split at hw
    · injection hw with hw
      subst hw
      simp [initState]
    · cases hw

theorem inv_reachable {n : Nat} {as : List Act} {s : SysState}
    (h : run (initState n) as = some s) : PoolInv as s := by
  have h2 := inv_run as (inv_init n) h
  simpa using h2

/-- Claim C2: for any interleaving of submissions and worker steps on a
pool of `n ≥ 1` workers: (1) the jobs claimed so far followed by the
jobs still queued are exactly the submitted jobs in submission order —
so no job is dropped or duplicated and jobs are claimed in submission
order relative to the single producer; (2) completed executions plus
in-flight jobs are, as a multiset, exactly the claimed jobs — each
claimed job is executed by exactly the one worker that claimed it,
exactly once; (3) hence in any state where no job remains queued or in
flight, the executed jobs are a permutation of the submitted jobs. -/
theorem jobs_executed_exactly_once (n : Nat) (_hn : 1 ≤ n) (as : List Act)
    (s : SysState) (h : run (initState n) as = some s) :
    claimedJobs s ++ jobsOfMsgs s.queue = submittedJobs as ∧
    (executedJobs s ++ inFlight s.workers).Perm (claimedJobs s) ∧
    (jobsOfMsgs s.queue = [] → inFlight s.workers = [] →
      (executedJobs s).Perm (submittedJobs as)) := by
  obtain ⟨hf, ho, -⟩ := inv_reachable h
  refine ⟨hf, Multiset.coe_eq_coe.mp ho, ?_⟩
  intro hq hif
  have h1 : claimedJobs s = submittedJobs as := by
    have hf2 : claimedJobs s ++ jobsOfMsgs s.queue = submittedJobs as := hf
    simpa [hq] using hf2
  have h2 := Multiset.coe_eq_coe.mp ho
  rw [hif, List.append_nil] at h2
  exact h1 ▸ h2

/-- Claim C5: in every reachable state, the worker registered as holding
the receiver mutex is exactly at the dequeue point of its loop (inside
`recv`), and a worker that is executing a job never holds the mutex:
the lock is held only for the duration of pulling one message. -/
theorem lock_only_during_dequeue (n : Nat) (as : List Act) (s : SysState)
    (h : run (initState n) as = some s) :
    (∀ w, s.lockHolder = some w → s.workers[w]? = some WorkerPC.locked) ∧
    (∀ w j, s.workers[w]? = some (WorkerPC.executing j) →
      s.lockHolder ≠ some w) := by
  obtain ⟨-, -, hone, htwo⟩ := inv_reachable h
  refine ⟨hone, ?_⟩
  intro w j hw hl
  have := hone w hl
  rw [hw] at this
  cases this

/-- Claim C9: worker-loop dispatch: a worker that has received
`NewJob(j)` takes exactly one possible next step, entering the job body,
and a worker that finishes a job steps back to the top of its loop; a
worker that has received `Terminate` takes exactly one possible next
step, leaving its loop; a worker that has left its loop never steps
again. -/
theorem worker_loop_dispatch (s : SysState) (w j : Nat) :
    (s.workers[w]? = some (WorkerPC.got (Message.NewJob j)) →
      step s (Act.startJob w) =
        some { s with workers := s.workers.set w (WorkerPC.executing j) } ∧
      ∀ a s', step s a = some s' → a.worker = some w → a = Act.startJob w) ∧
    (s.workers[w]? = some (WorkerPC.executing j) →
      step s (Act.finishJob w) =
        some { s with workers := s.workers.set w WorkerPC.waiting,
                      executedLog := s.executedLog ++ [(w, j)] } ∧
      ∀ a s', step s a = some s' → a.worker = some w → a = Act.finishJob w) ∧
    (s.workers[w]? = some (WorkerPC.got Message.Terminate) →
      step s (Act.exitLoop w) =
        some { s with workers := s.workers.set w WorkerPC.done } ∧
      ∀ a s', step s a = some s' → a.worker = some w → a = Act.exitLoop w) ∧
    (s.workers[w]? = some WorkerPC.done →
      ∀ a s', a.worker = some w → step s a ≠ some s') := by
  refine ⟨?_, ?_, ?_, ?_⟩
  · intro h
    refine ⟨by simp [step, h], ?_⟩
    intro a s' hstep hwa
    cases a with
    | submit j2 => simp [Act.worker] at hwa
    | submitTerminate => simp [Act.worker] at hwa
    | acquire v =>
        simp only [Act.worker, Option.some.injEq] at hwa
        subst hwa
        simp [step, h] at hstep
    | dequeue v =>
        simp only [Act.worker, Option.some.injEq] at hwa
        subst hwa
        simp [step, h] at hstep
    | startJob v =>
        simp only [Act.worker, Option.some.injEq] at hwa
        subst hwa
        rfl
    | finishJob v =>
        simp only [Act.worker, Option.some.injEq] at hwa
        subst hwa
        simp [step, h] at hstep
    | exitLoop v =>
        simp only [Act.worker, Option.some.injEq] at hwa
        subst hwa
        simp [step, h] at hstep
  · intro h
    refine ⟨by simp [step, h], ?_⟩
    intro a s' hstep hwa
    cases a with
    | submit j2 => simp [Act.worker] at hwa
    | submitTerminate => simp [Act.worker] at hwa
    | acquire v =>
        simp only [Act.worker, Option.some.injEq] at hwa
        subst hwa
        simp [step, h] at hstep
    | dequeue v =>
        simp only [Act.worker, Option.some.injEq] at hwa
        subst hwa
        simp [step, h] at hstep
    | startJob v =>
        simp only [Act.worker, Option.some.injEq] at hwa
        subst hwa
        simp [step, h] at hstep
    | finishJob v =>
        simp only [Act.worker, Option.some.injEq] at hwa
        subst hwa
        rfl
    | exitLoop v =>
        simp only [Act.worker, Option.some.injEq] at hwa
        subst hwa
        simp [step, h] at hstep
  · intro h
    refine ⟨by simp [step, h], ?_⟩
    intro a s' hstep hwa
    cases a with
    | submit j2 => simp [Act.worker] at hwa
    | submitTerminate => simp [Act.worker] at hwa
    | acquire v =>
        simp only [Act.worker, Option.some.injEq] at hwa
        subst hwa
        simp [step, h] at hstep
    | dequeue v =>
        simp only [Act.worker, Option.some.injEq] at hwa
        subst hwa
        simp [step, h] at hstep
    | startJob v =>
        simp only [Act.worker, Option.some.injEq] at hwa
        subst hwa
        simp [step, h] at hstep
    | finishJob v =>
        simp only [Act.worker, Option.some.injEq] at hwa
        subst hwa
        simp [step, h] at hstep
    | exitLoop v =>
        simp only [Act.worker, Option.some.injEq] at hwa
        subst hwa
        rfl
  · intro h a s' hwa hstep
    cases a with
    | submit j2 => simp [Act.worker] at hwa
    | submitTerminate => simp [Act.worker] at hwa
    | acquire v =>
        simp only [Act.worker, Option.some.injEq] at hwa
        subst hwa
        simp [step, h] at hstep
    | dequeue v =>
        simp only [Act.worker, Option.some.injEq] at hwa
        subst hwa
        simp [step, h] at hstep
    | startJob v =>
        simp only [Act.worker, Option.some.injEq] at hwa
        subst hwa
        simp [step, h] at hstep
    | finishJob v =>
        simp only [Act.worker, Option.some.injEq] at hwa
        subst hwa
        simp [step, h] at hstep
    | exitLoop v =>
        simp only [Act.worker, Option.some.injEq] at hwa
        subst hwa
        simp [step, h] at hstep

theorem new_foldl (l : List Nat) (ws : List Worker) (q : List Message) (r : Nat) :
    l.foldl (fun (p : List Worker × Channel) id =>
        let (w, ch) := Worker.new id p.2
        (p.1 ++ [w], ch)) (ws, ⟨q, r⟩) =
      (ws ++ l.map (fun id => ⟨id, some ()⟩), ⟨q, r + l.length⟩) := by
  induction l generalizing ws r with
  | nil => simp
  | cons x xs ih =>
      simp only [List.foldl_cons, Worker.new] at ih ⊢
      rw [ih]
      simp [List.append_assoc]
      omega

/-- Claim C7: for every `size ≥ 1`, `new(size)` returns a pool owning
exactly `size` workers whose ids are `0, 1, ..., size-1` in creation
order, each holding a live thread handle; the channel comes back with
an empty queue (no job dispatched during construction) and one live
receiver reference per spawned worker thread. -/
theorem new_spawns_indexed_workers (size : Nat) (hs : 1 ≤ size) :
    (ThreadPool.new size).1.workers.map Worker.id = List.range size ∧
    (∀ w ∈ (ThreadPool.new size).1.workers, w.thread = some ()) ∧
    (ThreadPool.new size).2.queue = [] ∧
    (ThreadPool.new size).2.receiverRefs = size := by
  have hnew : ThreadPool.new size =
      (⟨(List.range size).map (fun id => ⟨id, some ()⟩)⟩,
        ⟨[], 1 + size - 1⟩) := by
    simp only [ThreadPool.new]
    rw [new_foldl]
    simp
  rw [hnew]
  refine ⟨?_, ?_, rfl, by show 1 + size - 1 = size; omega⟩
  · simp [List.map_map, Function.comp_def]
  · intro w hw
    simp only [List.mem_map] at hw
    obtain ⟨i, -, rfl⟩ := hw
    rfl

/-- Claim C1, evaluation at the failing input: with `assert!(size > 0)`
commented out in the source, `ThreadPool::new 0` does not fail at call
time: it silently returns a pool owning no workers, over a channel
whose receiving end is already dropped (`receiverRefs = 0`). -/
theorem new_zero_silently_returns_pool :
    ThreadPool.new 0 = (⟨[]⟩, ⟨[], 0⟩) := rfl

/-- Claim C10: `new 0` succeeds with zero workers and a dropped receiving
end, and every subsequent `execute` on a channel with no receiver
panics at send time with the source's message — the zero-size misuse
surfaces only at first submission. -/
theorem new_zero_execute_panics (j : Nat) (ch : Channel)
    (hch : ch.receiverRefs = 0) :
    (ThreadPool.new 0).1.workers = [] ∧
    (ThreadPool.new 0).2.receiverRefs = 0 ∧
    ThreadPool.execute ch j = .error
      "Oh noes! Looks like none of the threads in the thread pool are alive!" := by
  refine ⟨rfl, rfl, ?_⟩
  simp [ThreadPool.execute, Channel.send, hch]

/-- Claim C8: `execute` wraps the job as a `NewJob` message appended to
the channel's queue when a receiver exists, and panics with the
source's descriptive message when no receiver remains. -/
theorem execute_wraps_or_panics (ch : Channel) (j : Nat) :
    (0 < ch.receiverRefs →
      ThreadPool.execute ch j =
        .ok ⟨ch.queue ++ [Message.NewJob j], ch.receiverRefs⟩) ∧
    (ch.receiverRefs = 0 →
      ThreadPool.execute ch j = .error
        "Oh noes! Looks like none of the threads in the thread pool are alive!") := by
  constructor
  · intro h
    simp [ThreadPool.execute, Channel.send, Nat.pos_iff_ne_zero.mp h]
  · intro h
    simp [ThreadPool.execute, Channel.send, h]

theorem sendTerminates_ok (n : Nat) : ∀ ch : Channel, 0 < ch.receiverRefs →
    sendTerminates ch n =
      .ok ⟨ch.queue ++ List.replicate n Message.Terminate, ch.receiverRefs⟩ := by
  induction n with
  | zero => intro ch h; simp [sendTerminates]
  | succ n ih =>
      intro ch h
      simp only [sendTerminates, Channel.send,
        if_neg (Nat.pos_iff_ne_zero.mp h)]
      rw [ih ⟨ch.queue ++ [Message.Terminate], ch.receiverRefs⟩ h]
      simp [List.replicate_succ, List.append_assoc]

theorem joinEvents_no_sends (ok : Nat → Bool) : ∀ ws : List Worker,
    ∀ e ∈ joinEvents ok ws, e ≠ DropEvent.sentTerminate := by
  intro ws
  induction ws with
  | nil => intro e he; cases he
  | cons w ws ih =>
      intro e he
      simp only [joinEvents] at he
      cases hw : w.thread with
      | none =>
          rw [hw] at he
          simp only [List.mem_cons] at he
          rcases he with rfl | he
          · simp
          · exact ih e he
      | some u =>
          rw [hw] at he
          by_cases hok : ok w.id
          · rw [if_pos hok] at he
            simp only [List.mem_cons] at he
            rcases he with rfl | he
            · simp
            · exact ih e he
          · rw [if_neg hok] at he
            simp only [List.mem_cons, List.not_mem_nil, or_false] at he
            subst he
            simp

/-- Claim C3: teardown of a pool owning the workers `ws` first enqueues
exactly one `Terminate` per worker — `ws.length` messages in total, no
more, no fewer — and only then joins: in the teardown event trace the
first `ws.length` events are exactly the sends and no send occurs
after them; `dropPool` delivers the channel with exactly the
`ws.length` appended `Terminate`s whatever the join outcomes are. -/
theorem drop_sends_one_terminate_per_worker (ch : Channel) (ok : Nat → Bool)
    (ws : List Worker) (h : 0 < ch.receiverRefs) :
    sendTerminates ch ws.length =
      .ok ⟨ch.queue ++ List.replicate ws.length Message.Terminate,
        ch.receiverRefs⟩ ∧
    (dropEvents ok ws).take ws.length =
      List.replicate ws.length DropEvent.sentTerminate ∧
    (∀ e ∈ (dropEvents ok ws).drop ws.length, e ≠ DropEvent.sentTerminate) ∧
    ThreadPool.dropPool ok ⟨ws⟩ ch =
      .ok (⟨ch.queue ++ List.replicate ws.length Message.Terminate,
            ch.receiverRefs⟩,
          (joinAll ok ws).1, (joinAll ok ws).2) := by
  refine ⟨sendTerminates_ok ws.length ch h, ?_, ?_, ?_⟩
  · rw [dropEvents, List.map_const']
    have ht := List.take_left (List.replicate ws.length DropEvent.sentTerminate)
      (joinEvents ok ws)
    rw [List.length_replicate] at ht
    exact ht
  · intro e he
    rw [dropEvents, List.map_const'] at he
    have hd := List.drop_left (List.replicate ws.length DropEvent.sentTerminate)
      (joinEvents ok ws)
    rw [List.length_replicate] at hd
    rw [hd] at he
    exact joinEvents_no_sends ok ws e he
  · simp only [ThreadPool.dropPool]
    rw [sendTerminates_ok ws.length ch h]

theorem joinAll_all_ok (ok : Nat → Bool) : ∀ ws : List Worker,
    (∀ w ∈ ws, w.thread = some ()) → (∀ w ∈ ws, ok w.id = true) →
    joinAll ok ws = (ws.map (fun w => { w with thread := none }), none) := by
  intro ws
  induction ws with
  | nil => intro _ _; rfl
  | cons w ws ih =>
      intro hth hok
      have hw := hth w (List.mem_cons_self w ws)
      have hkw := hok w (List.mem_cons_self w ws)
      simp only [joinAll, hw, hkw, if_pos]
      rw [ih (fun v hv => hth v (List.mem_cons_of_mem w hv))
          (fun v hv => hok v (List.mem_cons_of_mem w hv))]
      simp

theorem joinEvents_all_ok (ok : Nat → Bool) : ∀ ws : List Worker,
    (∀ w ∈ ws, w.thread = some ()) → (∀ w ∈ ws, ok w.id = true) →
    joinEvents ok ws = ws.map (fun w => DropEvent.joined w.id true) := by
  intro ws
  induction ws with
  | nil => intro _ _; rfl
  | cons w ws ih =>
      intro hth hok
      have hw := hth w (List.mem_cons_self w ws)
      have hkw := hok w (List.mem_cons_self w ws)
      simp only [joinEvents, hw, hkw, if_pos]
      rw [ih (fun v hv => hth v (List.mem_cons_of_mem w hv))
          (fun v hv => hok v (List.mem_cons_of_mem w hv))]
      simp

/-- Claim C6: for a pool whose workers carry ids `0..N-1` in index order,
all holding live handles, and whose threads all terminate normally:
the join events of teardown are exactly `joined 0, joined 1, ...,
joined N-1` — joins happen in worker index order — and after teardown
every worker's handle has been consumed (all `thread` fields are
`none`) with no join failure reported. -/
theorem teardown_joins_in_index_order (ok : Nat → Bool) (ws : List Worker)
    (hids : ws.map Worker.id = List.range ws.length)
    (hth : ∀ w ∈ ws, w.thread = some ())
    (hok : ∀ w ∈ ws, ok w.id = true) :
    joinEvents ok ws =
      (List.range ws.length).map (fun i => DropEvent.joined i true) ∧
    (joinAll ok ws).1.map Worker.thread = List.replicate ws.length none ∧
    (joinAll ok ws).2 = none := by
  have h1 := joinEvents_all_ok ok ws hth hok
  have h2 := joinAll_all_ok ok ws hth hok
  refine ⟨?_, ?_, ?_⟩
  · rw [h1, ← hids, List.map_map]
    rfl
  · rw [h2]
    simp only [List.map_map]
    have : (Worker.thread ∘ fun w => { w with thread := none }) =
        (fun _ : Worker => (none : Option Unit)) := rfl
    rw [this, List.map_const']
  · rw [h2]

/-- Claim C4 counterexample: a pool of two live workers where worker 0's
thread exited abnormally.  Teardown panics at worker 0's failed join
and abandons worker 1: worker 1 keeps its untouched handle
(`thread = some ()`), so it is *not* joined — refuting the claim that
all remaining workers are still joined after a join failure. -/
theorem join_failure_abandons_rest_counterexample :
    (joinAll (fun i => i != 0)
        [(⟨0, some ()⟩ : Worker), ⟨1, some ()⟩]).1[1]? = some ⟨1, some ()⟩ ∧
    ¬ (∀ w ∈ (joinAll (fun i => i != 0)
          [(⟨0, some ()⟩ : Worker), ⟨1, some ()⟩]).1, w.thread = none) := by
  decide

/-- Claim C4 as amended: if the first abnormally-exited worker sits at
index `i`, teardown takes worker `i`'s handle, panics reporting the
join failure, and leaves every later worker exactly as it was — their
handles are never consumed and they are never joined. -/
theorem join_failure_panics_immediately (ok : Nat → Bool) :
    ∀ (ws : List Worker) (i : Nat) (w : Worker),
    ws[i]? = some w → w.thread = some () → ok w.id = false →
    (∀ k, k < i → ∀ v, ws[k]? = some v → v.thread = some () → ok v.id = true) →
    (joinAll ok ws).2 =
      some "Failed to join on one of the worker threads!" ∧
    ∀ k, i < k → (joinAll ok ws).1[k]? = ws[k]? := by
  intro ws
  induction ws with
  | nil => intro i w h; cases h
  | cons x xs ih =>
      intro i w h hth hok hpre
      cases i with
      | zero =>
          rw [List.getElem?_cons_zero] at h
          injection h with h
          subst h
          simp only [joinAll, hth, hok]
          refine ⟨rfl, ?_⟩
          intro k hk
          cases k with
          | zero => cases hk
          | succ k' => simp [List.getElem?_cons_succ]
      | succ i' =>
          rw [List.getElem?_cons_succ] at h
          have hx : x.thread = some () → ok x.id = true := by
            intro hxth
            exact hpre 0 (Nat.succ_pos i') x List.getElem?_cons_zero hxth
          have hpre' : ∀ k, k < i' → ∀ v, xs[k]? = some v →
              v.thread = some () → ok v.id = true := by
            intro k hk v hv
            exact hpre (k + 1) (Nat.succ_lt_succ hk) v
              (by rw [List.getElem?_cons_succ]; exact hv)
          obtain ⟨hsnd, hfst⟩ := ih i' w h hth hok hpre'
          cases hxth : x.thread with
          | none =>
              simp only [joinAll, hxth]
              refine ⟨hsnd, ?_⟩
              intro k hk
              cases k with
              | zero => cases hk
              | succ k' =>
                  simp only [List.getElem?_cons_succ]
                  exact hfst k' (Nat.lt_of_succ_lt_succ hk)
          | some u =>
              have hxok : ok x.id = true := hx (by rw [hxth])
              simp only [joinAll, hxth, hxok, if_pos]
              refine ⟨hsnd, ?_⟩
              intro k hk
              cases k with
              | zero => cases hk
              | succ k' =>
                  simp only [List.getElem?_cons_succ]
                  exact hfst k' (Nat.lt_of_succ_lt_succ hk)



/-- Closed instantiation of the C2 theorem: a single-worker pool runs
two submitted jobs and then terminates; the executed jobs are exactly
the submitted ones, in order. -/
theorem jobs_executed_exactly_once_witness :
    (1 ≤ 1 ∧ run (initState 1) c2acts = some c2state) ∧
    (claimedJobs c2state ++ jobsOfMsgs c2state.queue = submittedJobs c2acts ∧
      (executedJobs c2state ++ inFlight c2state.workers).Perm
        (claimedJobs c2state) ∧
      (jobsOfMsgs c2state.queue = [] → inFlight c2state.workers = [] →
        (executedJobs c2state).Perm (submittedJobs c2acts))) :=
  ⟨⟨by decide, by decide⟩,
    jobs_executed_exactly_once 1 (by decide) c2acts c2state (by decide)⟩



/-- Closed instantiation of the C5 theorem at a state in which worker 0
holds the receiver mutex inside `recv`. -/
theorem lock_only_during_dequeue_witness :
    run (initState 1) c5acts = some c5state ∧
    ((∀ w, c5state.lockHolder = some w →
        c5state.workers[w]? = some WorkerPC.locked) ∧
      (∀ w j, c5state.workers[w]? = some (WorkerPC.executing j) →
        c5state.lockHolder ≠ some w)) :=
  ⟨by decide, lock_only_during_dequeue 1 c5acts c5state (by decide)⟩





/-- Closed instantiation of the C9 theorem: the three loop transitions
evaluated on concrete one-worker states, plus the impossibility of a
terminated worker re-acquiring the mutex. -/
theorem worker_loop_dispatch_witness :
    step c9got (Act.startJob 0) =
      some { c9got with workers := c9got.workers.set 0 (WorkerPC.executing 7) } ∧
    step c9exec (Act.finishJob 0) =
      some { c9exec with workers := c9exec.workers.set 0 WorkerPC.waiting,
                         executedLog := c9exec.executedLog ++ [(0, 7)] } ∧
    step c9term (Act.exitLoop 0) =
      some { c9term with workers := c9term.workers.set 0 WorkerPC.done } ∧
    step c9fin (Act.acquire 0) ≠ some c9fin :=
  ⟨((worker_loop_dispatch c9got 0 7).1 (by decide)).1,
   ((worker_loop_dispatch c9exec 0 7).2.1 (by decide)).1,
   ((worker_loop_dispatch c9term 0 7).2.2.1 (by decide)).1,
   (worker_loop_dispatch c9fin 0 7).2.2.2 (by decide) (Act.acquire 0) c9fin
     (by decide)⟩



/-- Closed instantiation of the C3 theorem on a two-worker pool with a
live channel. -/
theorem drop_sends_one_terminate_per_worker_witness :
    0 < c3ch.receiverRefs ∧
    (sendTerminates c3ch c3ws.length =
        .ok ⟨c3ch.queue ++ List.replicate c3ws.length Message.Terminate,
          c3ch.receiverRefs⟩ ∧
      (dropEvents (fun _ => true) c3ws).take c3ws.length =
        List.replicate c3ws.length DropEvent.sentTerminate ∧
      (∀ e ∈ (dropEvents (fun _ => true) c3ws).drop c3ws.length,
        e ≠ DropEvent.sentTerminate) ∧
      ThreadPool.dropPool (fun _ => true) ⟨c3ws⟩ c3ch =
        .ok (⟨c3ch.queue ++ List.replicate c3ws.length Message.Terminate,
              c3ch.receiverRefs⟩,
            (joinAll (fun _ => true) c3ws).1,
            (joinAll (fun _ => true) c3ws).2)) :=
  ⟨by decide,
    drop_sends_one_terminate_per_worker c3ch (fun _ => true) c3ws (by decide)⟩



/-- Closed instantiation of the amended C4 theorem: worker 0's thread
exited abnormally; teardown reports the join failure and leaves worker
1 untouched. -/
theorem join_failure_panics_immediately_witness :
    (c4ws[0]? = some ⟨0, some ()⟩ ∧
      (⟨0, some ()⟩ : Worker).thread = some () ∧
      c4ok (⟨0, some ()⟩ : Worker).id = false) ∧
    ((joinAll c4ok c4ws).2 =
        some "Failed to join on one of the worker threads!" ∧
      ∀ k, 0 < k → (joinAll c4ok c4ws).1[k]? = c4ws[k]?) :=
  ⟨⟨by decide, by decide, by decide⟩,
    join_failure_panics_immediately c4ok c4ws 0 ⟨0, some ()⟩ (by decide)
      (by decide) (by decide) (fun k hk => absurd hk (Nat.not_lt_zero k))⟩


/-- Closed instantiation of the C6 theorem on a fresh three-worker
pool whose threads all terminate normally. -/
theorem teardown_joins_in_index_order_witness :
    (c6ws.map Worker.id = List.range c6ws.length ∧
      (∀ w ∈ c6ws, w.thread = some ()) ∧
      (∀ w ∈ c6ws, (fun _ => true) w.id = true)) ∧
    (joinEvents (fun _ => true) c6ws =
        (List.range c6ws.length).map (fun i => DropEvent.joined i true) ∧
      (joinAll (fun _ => true) c6ws).1.map Worker.thread =
        List.replicate c6ws.length none ∧
      (joinAll (fun _ => true) c6ws).2 = none) :=
  ⟨⟨by decide, by decide, by decide⟩,
    teardown_joins_in_index_order (fun _ => true) c6ws (by decide) (by decide)
      (by decide)⟩

/-- Closed instantiation of the C7 theorem at `size = 3`. -/
theorem new_spawns_indexed_workers_witness :
    1 ≤ 3 ∧
    ((ThreadPool.new 3).1.workers.map Worker.id = List.range 3 ∧
      (∀ w ∈ (ThreadPool.new 3).1.workers, w.thread = some ()) ∧
      (ThreadPool.new 3).2.queue = [] ∧
      (ThreadPool.new 3).2.receiverRefs = 3) :=
  ⟨by decide, new_spawns_indexed_workers 3 (by decide)⟩

/-- Closed instantiation of the C8 theorem on a live channel (send
succeeds, job wrapped as `NewJob`) and on a dead channel (send panics
with the source's message). -/
theorem execute_wraps_or_panics_witness :
    (0 < (2 : Nat) ∧ ThreadPool.execute ⟨[], 2⟩ 7 =
      .ok ⟨([] : List Message) ++ [Message.NewJob 7], 2⟩) ∧
    ((0 : Nat) = 0 ∧ ThreadPool.execute ⟨[], 0⟩ 7 = .error
      "Oh noes! Looks like none of the threads in the thread pool are alive!") :=
  ⟨⟨by decide, (execute_wraps_or_panics ⟨[], 2⟩ 7).1 (by decide)⟩,
   ⟨rfl, (execute_wraps_or_panics ⟨[], 0⟩ 7).2 rfl⟩⟩

/-- Closed instantiation of the C10 theorem at job 7 on the channel a
zero-size pool leaves behind. -/
theorem new_zero_execute_panics_witness :
    (⟨[], 0⟩ : Channel).receiverRefs = 0 ∧
    ((ThreadPool.new 0).1.workers = [] ∧
      (ThreadPool.new 0).2.receiverRefs = 0 ∧
      ThreadPool.execute ⟨[], 0⟩ 7 = .error
        "Oh noes! Looks like none of the threads in the thread pool are alive!") :=
  ⟨rfl, new_zero_execute_panics 7 ⟨[], 0⟩ rfl⟩
